import Mathlib

/-!
Verification development for the ORC read-range coalescing cache
(`src/c++/src/io/Cache.hh`).

The header declares the data model (`CacheOptions`, `ReadRange`) and the
`ReadRangeCache` class.  The algorithmic bodies (range merging, fetching,
reading) are not part of the shown source, so those operations are modelled
from the specification; the data model and the declared constants are
translated directly from the header.  Machine integers (`int64_t`) are
modelled as `Int`: all offsets and lengths used by the cache are
non-negative and far below 2^63, and signed overflow in C++ is undefined
behaviour, so the mathematical integers are the faithful model.
-/

namespace OrcCache

/-- `CacheOptions` from `Cache.hh` lines 12-21: `hole_size_limit` is the
maximum distance in bytes between two consecutive ranges beyond which they
are not combined; `range_size_limit` is the maximum size in bytes of a
combined range. -/
structure CacheOptions where
  hole_size_limit : Int
  range_size_limit : Int
deriving DecidableEq

/-- `ReadRange` from `Cache.hh` lines 23-37: a byte range given by
`offset` and `length`, both `int64_t`. -/
structure ReadRange where
  offset : Int
  length : Int
deriving DecidableEq

/-- The exclusive end of a range: `offset + length`. -/
def ReadRange.rend (r : ReadRange) : Int := r.offset + r.length

/-- `operator==` from `Cache.hh` lines 27-29:
`left.offset == right.offset && left.length == right.length`. -/
def ReadRange.eqOp (left right : ReadRange) : Bool :=
  decide (left.offset = right.offset) && decide (left.length = right.length)

/-- `ReadRange::contains` from `Cache.hh` lines 34-36:
`offset <= other.offset && offset + length >= other.offset + other.length`. -/
def ReadRange.contains (a other : ReadRange) : Bool :=
  decide (a.offset ≤ other.offset) &&
    decide (a.offset + a.length ≥ other.offset + other.length)

/-- `kDefaultHoleSizeLimit` from `Cache.hh` line 64. -/
def kDefaultHoleSizeLimit : Int := 8192

/-- `kDefaultRangeSizeLimit` from `Cache.hh` line 65: `32 * 1024 * 1024`. -/
def kDefaultRangeSizeLimit : Int := 32 * 1024 * 1024

/-- The caller precondition of `ReadRangeCache::cache` (`Cache.hh` lines
73-77): the requested ranges, viewed as one stream sorted by offset, are
pairwise disjoint half-open intervals — each range ends no later than the
next one begins. -/
def sortedDisjointB : List ReadRange → Bool
  | [] => true
  | [_] => true
  | a :: b :: rest => decide (a.rend ≤ b.offset) && sortedDisjointB (b :: rest)

/-- All ranges in the list have non-negative length (the spec's data model:
`length: int64 ≥ 0`). -/
def nonnegB (rs : List ReadRange) : Bool :=
  rs.all (fun r => decide (0 ≤ r.length))

/-- Modelled from the spec: the RangeMerger's merge test (source body of
the merger is absent from `src/`).  A running merged range absorbs the
next candidate iff `next.offset - running.end ≤ hole_size_limit` and
`next.end - running.offset ≤ range_size_limit`; ties use `≤`. -/
def shouldMerge (opts : CacheOptions) (running next : ReadRange) : Bool :=
  decide (next.offset - running.rend ≤ opts.hole_size_limit) &&
    decide (next.rend - running.offset ≤ opts.range_size_limit)

/-- Modelled from the spec: combining a running merged range with the next
candidate extends the running range's end to the candidate's end. -/
def mergeStep (running next : ReadRange) : ReadRange :=
  ⟨running.offset, next.rend - running.offset⟩

/-- Modelled from the spec: the greedy walk of the RangeMerger (its source
body is absent from `src/`).  It walks the sorted stream of requested
ranges, combining the running merged range with the next candidate when
`shouldMerge` holds, and otherwise closing the running range and starting
a new one from the candidate. -/
def coalesceAux (opts : CacheOptions) (running : ReadRange) :
    List ReadRange → List ReadRange
  | [] => [running]
  | next :: rest =>
    if shouldMerge opts running next then
      coalesceAux opts (mergeStep running next) rest
    else
      running :: coalesceAux opts next rest

/-- Modelled from the spec: the RangeMerger on a whole sorted stream of
requested ranges, producing the merged-range table. -/
def coalesce (opts : CacheOptions) : List ReadRange → List ReadRange
  | [] => []
  | r :: rest => coalesceAux opts r rest

/-- The bytes of the external stream at offsets
`offset, offset+1, ..., offset+length-1`: the buffer that a successful
positioned read `readAt(offset, length)` returns. -/
def readAtData (data : Int → Nat) (offset length : Int) : List Nat :=
  List.map (fun (i : Nat) => data (offset + (i : Int))) (List.range length.toNat)

/-- Modelled from the spec: the external stream consumed by the cache.
`data` gives the byte at each offset; `failsAt offset length` says whether
the positioned read `readAt(offset, length)` reports an I/O failure. -/
structure StreamModel where
  data : Int → Nat
  failsAt : Int → Int → Bool

/-- Modelled from the spec: the stream's positioned read
`readAt(offset, length) -> Result<Buffer>`: either an I/O error or the
buffer of exactly `length` bytes starting at `offset`. -/
def StreamModel.readAt (s : StreamModel) (offset length : Int) :
    Except String (List Nat) :=
  if s.failsAt offset length then Except.error "io failure"
  else Except.ok (readAtData s.data offset length)

instance {ε α : Type} [DecidableEq ε] [DecidableEq α] :
    DecidableEq (Except ε α) := fun x y =>
  match x, y with
  | Except.ok a, Except.ok b =>
    decidable_of_iff (a = b) ⟨congrArg Except.ok, Except.ok.inj⟩
  | Except.error a, Except.error b =>
    decidable_of_iff (a = b) ⟨congrArg Except.error, Except.error.inj⟩
  | Except.ok _, Except.error _ => isFalse (fun h => Except.noConfusion h)
  | Except.error _, Except.ok _ => isFalse (fun h => Except.noConfusion h)

/-- Modelled from the spec: one entry of the merged-range table.  `range`
is the physical merged range; `result` is `none` while the fetch is still
pending and `some` once it reached the terminal `Ready`/`Failed` state;
`dispatches` counts how many `readAt` calls were issued for this entry. -/
structure MergedEntry where
  range : ReadRange
  result : Option (Except String (List Nat))
  dispatches : Nat
deriving DecidableEq

/-- A freshly created, not-yet-fetched table entry for a merged range. -/
def freshEntry (m : ReadRange) : MergedEntry := ⟨m, none, 0⟩

/-- Modelled from the spec: the idempotent claim-and-fetch transition of a
merged range.  If the entry already holds a terminal result it is returned
unchanged (no second dispatch); otherwise one `readAt` is dispatched for
its physical range and the result recorded. -/
def fetchEntry (s : StreamModel) (e : MergedEntry) : MergedEntry :=
  match e.result with
  | some _ => e
  | none =>
    ⟨e.range, some (s.readAt e.range.offset e.range.length), e.dispatches + 1⟩

/-- The terminal result of an entry, fetching on demand if still pending. -/
def entryResult (s : StreamModel) (e : MergedEntry) :
    Except String (List Nat) :=
  match e.result with
  | some res => res
  | none => s.readAt e.range.offset e.range.length

/-- Modelled from the spec: `cache` in lazy mode — the merged-range table
is extended by the coalesced ranges, with no fetch dispatched. -/
def cacheLazy (opts : CacheOptions) (rs : List ReadRange) : List MergedEntry :=
  (coalesce opts rs).map freshEntry

/-- Modelled from the spec: `cache` in eager mode — the merged-range table
is extended by the coalesced ranges and one fetch task is dispatched per
newly created merged range.  No error is ever returned by `cache` itself:
a fetch failure is only recorded inside the entry. -/
def cacheEager (s : StreamModel) (opts : CacheOptions) (rs : List ReadRange) :
    List MergedEntry :=
  (coalesce opts rs).map (fun m => fetchEntry s (freshEntry m))

/-- Slicing the exact requested bytes out of a merged buffer: the view of
length `r.length` starting at offset `r.offset - m.offset` inside the
buffer fetched for the merged range `m`. -/
def sliceOut (m r : ReadRange) (buf : List Nat) : List Nat :=
  (buf.drop (r.offset - m.offset).toNat).take r.length.toNat

/-- Modelled from the spec: `read(range) -> Result<Buffer>`.  It locates
the containing merged range (a range never registered via `cache` is a
reported usage error), obtains the entry's terminal result, and on success
returns the exact sub-range sliced out of the merged buffer; on failure it
replays the stored error. -/
def readCache (s : StreamModel) (st : List MergedEntry) (r : ReadRange) :
    Except String (List Nat) :=
  match st.find? (fun e => e.range.contains r) with
  | none => Except.error "range not found in cache"
  | some e => (entryResult s e).map (sliceOut e.range r)

/-- An entry is implicated by a `waitFor` call iff its merged range
contains one of the requested ranges. -/
def implicated (ranges : List ReadRange) (e : MergedEntry) : Bool :=
  ranges.any (fun r => e.range.contains r)

/-- Whether an entry holds a recorded fetch failure. -/
def entryFailed (e : MergedEntry) : Bool :=
  match e.result with
  | some (Except.error _) => true
  | _ => false

/-- The error message stored on a failed entry. -/
def entryErr (e : MergedEntry) : String :=
  match e.result with
  | some (Except.error msg) => msg
  | _ => ""

/-- Modelled from the spec: the state update of `waitFor` — every entry
implicated by the requested ranges is brought to its terminal state via
the idempotent claim-and-fetch transition; other entries are untouched. -/
def waitForState (s : StreamModel) (ranges : List ReadRange)
    (st : List MergedEntry) : List MergedEntry :=
  st.map (fun e => if implicated ranges e then fetchEntry s e else e)

/-- Modelled from the spec: the value `waitFor` returns once all
implicated entries are terminal — the first recorded failure among the
implicated entries, if any, else success. -/
def waitForResult (ranges : List ReadRange) (st : List MergedEntry) :
    Except String Unit :=
  match st.find? (fun e => implicated ranges e && entryFailed e) with
  | some e => Except.error (entryErr e)
  | none => Except.ok ()

/-- Modelled from the spec: `waitFor(ranges) -> Result<void>` (declared
nowhere in `Cache.hh`, described in the spec).  Every requested range must
have a containing merged range, else a usage error is reported and nothing
is fetched.  Otherwise every implicated entry is brought to its terminal
state (dispatching a fetch only if still pending), and the first recorded
failure among the implicated entries, if any, is returned. -/
def waitFor (s : StreamModel) (st : List MergedEntry) (ranges : List ReadRange) :
    Except String Unit × List MergedEntry :=
  if ranges.all (fun r => st.any (fun e => e.range.contains r)) then
    (waitForResult ranges (waitForState s ranges st), waitForState s ranges st)
  else (Except.error "range not found in cache", st)

/-- The public member operations declared by the `ReadRangeCache` class in
`Cache.hh` lines 62-85 (besides the constructor and destructor): only
`cache` (line 77) and `read` (line 80). -/
def readRangeCacheDeclaredOps : List String := ["cache", "read"]

/-- The operations the usage comment of `ReadRangeCache` (`Cache.hh` lines
46-61) instructs callers to invoke: steps 1-3 name `Cache()`, `WaitFor()`
and `Read()`. -/
def readRangeCacheDocumentedOps : List String := ["cache", "waitFor", "read"]

/-- Adjacent merged ranges are separated: they do not overlap, and either
the gap between them exceeds `hole_size_limit` or combining them would
exceed `range_size_limit`. -/
def pairwiseSepB (opts : CacheOptions) (a b : ReadRange) : Bool :=
  decide (a.rend ≤ b.offset) &&
    (decide (opts.hole_size_limit < b.offset - a.rend) ||
      decide (opts.range_size_limit < b.rend - a.offset))

/-- Every adjacent pair of the merged-range table is separated. -/
def chainSepB (opts : CacheOptions) : List ReadRange → Bool
  | [] => true
  | [_] => true
  | a :: b :: rest => pairwiseSepB opts a b && chainSepB opts (b :: rest)

/-- The table is sorted by ascending offset. -/
def sortedByOffsetB : List ReadRange → Bool
  | [] => true
  | [_] => true
  | a :: b :: rest => decide (a.offset ≤ b.offset) && sortedByOffsetB (b :: rest)

theorem nonnegB_cons (r : ReadRange) (l : List ReadRange) :
    nonnegB (r :: l) = (decide (0 ≤ r.length) && nonnegB l) := rfl

theorem mergeStep_offset (a b : ReadRange) : (mergeStep a b).offset = a.offset :=
  rfl

theorem mergeStep_rend (a b : ReadRange) : (mergeStep a b).rend = b.rend := by
  simp only [mergeStep, ReadRange.rend]
  omega

theorem contains_of_bounds (m r : ReadRange)
    (h1 : m.offset ≤ r.offset) (h2 : r.rend ≤ m.rend) :
    m.contains r = true := by
  simp only [ReadRange.rend] at h2
  simp only [ReadRange.contains, Bool.and_eq_true, decide_eq_true_eq, ge_iff_le]
  omega

theorem sortedDisjointB_congr_head (a b : ReadRange) (l : List ReadRange)
    (hle : b.rend ≤ a.rend) (h : sortedDisjointB (a :: l) = true) :
    sortedDisjointB (b :: l) = true := by
  cases l with
  | nil => rfl
  | cons c l =>
    simp only [sortedDisjointB, Bool.and_eq_true, decide_eq_true_eq] at h ⊢
    exact ⟨le_trans hle h.1, h.2⟩

/-- The structural induction behind the merger's invariants: walking the
rest of a sorted disjoint stream starting from a running merged range
yields a non-empty table whose head extends the running range leftwards
at the same offset, all entries separated, all lengths non-negative, and
every consumed requested range contained in some entry. -/
theorem coalesceAux_main (opts : CacheOptions) :
    ∀ (rest : List ReadRange) (running : ReadRange),
    sortedDisjointB (running :: rest) = true →
    nonnegB (running :: rest) = true →
    ∃ m tl, coalesceAux opts running rest = m :: tl ∧
      m.offset = running.offset ∧ running.rend ≤ m.rend ∧
      chainSepB opts (m :: tl) = true ∧
      nonnegB (m :: tl) = true ∧
      (∀ r ∈ rest, ∃ m2 ∈ (m :: tl), m2.contains r = true) := by
  intro rest
  induction rest with
  | nil =>
    intro running hs hn
    exact ⟨running, [], rfl, rfl, le_refl _, rfl, hn, by simp⟩
  | cons next rest ih =>
    intro running hs hn
    have hs' : running.rend ≤ next.offset ∧ sortedDisjointB (next :: rest) = true := by
      simpa only [sortedDisjointB, Bool.and_eq_true, decide_eq_true_eq] using hs
    have hn' : 0 ≤ running.length ∧ nonnegB (next :: rest) = true := by
      rw [nonnegB_cons] at hn
      simpa only [Bool.and_eq_true, decide_eq_true_eq] using hn
    have hnrest : 0 ≤ next.length ∧ nonnegB rest = true := by
      have h2 := hn'.2
      rw [nonnegB_cons] at h2
      simpa only [Bool.and_eq_true, decide_eq_true_eq] using h2
    have hnext : 0 ≤ next.length := hnrest.1
    have hro : running.offset ≤ running.rend := by
      simp only [ReadRange.rend]; omega
    have hno : next.offset ≤ next.rend := by
      simp only [ReadRange.rend]; omega
    by_cases hm : shouldMerge opts running next = true
    · -- the candidate is absorbed into the running merged range
      have hcond : next.offset - running.rend ≤ opts.hole_size_limit ∧
          next.rend - running.offset ≤ opts.range_size_limit := by
        simpa only [shouldMerge, Bool.and_eq_true, decide_eq_true_eq] using hm
      have hsM : sortedDisjointB (mergeStep running next :: rest) = true := by
        refine sortedDisjointB_congr_head next (mergeStep running next) rest ?_ hs'.2
        rw [mergeStep_rend]
      have hnM : nonnegB (mergeStep running next :: rest) = true := by
        rw [nonnegB_cons]
        have hlen : 0 ≤ (mergeStep running next).length := by
          simp only [mergeStep, ReadRange.rend]
          have h1 := hs'.1
          simp only [ReadRange.rend] at h1
          omega
        simp only [Bool.and_eq_true, decide_eq_true_eq]
        exact ⟨hlen, hnrest.2⟩
      obtain ⟨m, tl, heq, hoff, hrend, hsep, hnn, hcont⟩ :=
        ih (mergeStep running next) hsM hnM
      refine ⟨m, tl, ?_, ?_, ?_, hsep, hnn, ?_⟩
      · simp only [coalesceAux, hm, if_true]
        exact heq
      · rw [hoff, mergeStep_offset]
      · rw [mergeStep_rend] at hrend
        exact le_trans (le_trans hs'.1 hno) hrend
      · intro r hr
        rcases List.mem_cons.mp hr with hr | hr
        · subst hr
          refine ⟨m, List.mem_cons_self _ _, contains_of_bounds m r ?_ ?_⟩
          · rw [hoff, mergeStep_offset]
            exact le_trans hro hs'.1
          · rw [mergeStep_rend] at hrend
            exact hrend
        · exact hcont r hr
    · -- the running merged range is closed; a new one starts at the candidate
      have hcond : opts.hole_size_limit < next.offset - running.rend ∨
          opts.range_size_limit < next.rend - running.offset := by
        simpa only [shouldMerge, Bool.and_eq_true, decide_eq_true_eq,
          not_and_or, not_le] using hm
      obtain ⟨m', tl', heq', hoff', hrend', hsep', hnn', hcont'⟩ :=
        ih next hs'.2 hn'.2
      refine ⟨running, m' :: tl', ?_, rfl, le_refl _, ?_, ?_, ?_⟩
      · simp only [coalesceAux, hm, if_false]
        simp [heq']
      · show (pairwiseSepB opts running m' && chainSepB opts (m' :: tl')) = true
        simp only [Bool.and_eq_true]
        refine ⟨?_, hsep'⟩
        simp only [pairwiseSepB, Bool.and_eq_true, Bool.or_eq_true,
          decide_eq_true_eq]
        constructor
        · rw [hoff']
          exact hs'.1
        · rcases hcond with h | h
          · left
            rw [hoff']
            exact h
          · right
            exact lt_of_lt_of_le h (by omega)
      · rw [nonnegB_cons]
        simp only [Bool.and_eq_true, decide_eq_true_eq]
        exact ⟨hn'.1, hnn'⟩
      · intro r hr
        rcases List.mem_cons.mp hr with hr | hr
        · subst hr
          refine ⟨m', List.mem_cons_of_mem _ (List.mem_cons_self _ _),
            contains_of_bounds m' r (le_of_eq hoff') hrend'⟩
        · obtain ⟨m2, hm2, hc2⟩ := hcont' r hr
          exact ⟨m2, List.mem_cons_of_mem _ hm2, hc2⟩

theorem sortedByOffsetB_of_sep (opts : CacheOptions) :
    ∀ l : List ReadRange, chainSepB opts l = true → nonnegB l = true →
    sortedByOffsetB l = true := by
  intro l
  induction l with
  | nil => intro _ _; rfl
  | cons a l ih =>
    cases l with
    | nil => intro _ _; rfl
    | cons b l =>
      intro hsep hnn
      simp only [chainSepB, Bool.and_eq_true] at hsep
      have hab : a.rend ≤ b.offset := by
        have h1 := hsep.1
        simp only [pairwiseSepB, Bool.and_eq_true, decide_eq_true_eq] at h1
        exact h1.1
      have ha : 0 ≤ a.length := by
        rw [nonnegB_cons] at hnn
        simp only [Bool.and_eq_true, decide_eq_true_eq] at hnn
        exact hnn.1
      have hbl : nonnegB (b :: l) = true := by
        rw [nonnegB_cons] at hnn
        simp only [Bool.and_eq_true, decide_eq_true_eq] at hnn
        exact hnn.2
      show (decide (a.offset ≤ b.offset) && sortedByOffsetB (b :: l)) = true
      simp only [Bool.and_eq_true, decide_eq_true_eq]
      refine ⟨?_, ih hsep.2 hbl⟩
      simp only [ReadRange.rend] at hab
      omega

theorem pairwise_nonoverlap_of_sep (opts : CacheOptions) :
    ∀ l : List ReadRange, chainSepB opts l = true → nonnegB l = true →
    List.Pairwise (fun a b => a.rend ≤ b.offset) l := by
  intro l
  induction l with
  | nil => intro _ _; exact List.Pairwise.nil
  | cons a l ih =>
    intro hsep hnn
    have hna : nonnegB l = true := by
      rw [nonnegB_cons] at hnn
      simp only [Bool.and_eq_true, decide_eq_true_eq] at hnn
      exact hnn.2
    cases l with
    | nil => exact List.pairwise_singleton _ _
    | cons b l' =>
      simp only [chainSepB, Bool.and_eq_true] at hsep
      have hab : a.rend ≤ b.offset := by
        have h1 := hsep.1
        simp only [pairwiseSepB, Bool.and_eq_true, decide_eq_true_eq] at h1
        exact h1.1
      have hbl : 0 ≤ b.length := by
        rw [nonnegB_cons] at hna
        simp only [Bool.and_eq_true, decide_eq_true_eq] at hna
        exact hna.1
      have hrest := ih hsep.2 hna
      refine List.Pairwise.cons ?_ hrest
      intro c hc
      rcases List.mem_cons.mp hc with hc | hc
      · subst hc; exact hab
      · have hbc : b.rend ≤ c.offset := (List.rel_of_pairwise_cons hrest) hc
        have : b.offset ≤ b.rend := by simp only [ReadRange.rend]; omega
        omega

/-- C3 (amended): for every sorted disjoint stream of requested ranges
with non-negative lengths, the merged-range table produced by the merger
has pairwise non-overlapping entries sorted by ascending offset, any two
consecutive entries either leave a gap above `hole_size_limit` or would
exceed `range_size_limit` if combined, and every requested range is
contained in at least one merged range. -/
theorem coalesce_invariants (opts : CacheOptions) (rs : List ReadRange)
    (hs : sortedDisjointB rs = true) (hn : nonnegB rs = true) :
    chainSepB opts (coalesce opts rs) = true ∧
    List.Pairwise (fun a b => a.rend ≤ b.offset) (coalesce opts rs) ∧
    sortedByOffsetB (coalesce opts rs) = true ∧
    nonnegB (coalesce opts rs) = true ∧
    (∀ r ∈ rs, ∃ m ∈ coalesce opts rs, m.contains r = true) := by
  cases rs with
  | nil => exact ⟨rfl, List.Pairwise.nil, rfl, rfl, by simp⟩
  | cons r rest =>
    obtain ⟨m, tl, heq, hoff, hrend, hsep, hnn, hcont⟩ :=
      coalesceAux_main opts rest r hs hn
    have hout : coalesce opts (r :: rest) = m :: tl := heq
    rw [hout]
    refine ⟨hsep, pairwise_nonoverlap_of_sep opts _ hsep hnn,
      sortedByOffsetB_of_sep opts _ hsep hnn, hnn, ?_⟩
    intro q hq
    rcases List.mem_cons.mp hq with hq | hq
    · subst hq
      exact ⟨m, List.mem_cons_self _ _,
        contains_of_bounds m q (le_of_eq hoff) hrend⟩
    · exact hcont q hq

/-- C3 witness: with options `{100, 1000}`, caching `[0,50)` and
`[300,50)` yields a separated table in which `[300,50)` has a containing
merged range. -/
theorem coalesce_invariants_witness :
    chainSepB ⟨100, 1000⟩ (coalesce ⟨100, 1000⟩ [⟨0, 50⟩, ⟨300, 50⟩]) = true ∧
    (∃ m ∈ coalesce ⟨100, 1000⟩ [⟨0, 50⟩, ⟨300, 50⟩],
      m.contains ⟨300, 50⟩ = true) := by
  have h := coalesce_invariants ⟨100, 1000⟩ [⟨0, 50⟩, ⟨300, 50⟩]
    (by decide) (by decide)
  exact ⟨h.1, h.2.2.2.2 ⟨300, 50⟩ (by decide)⟩

/-- C3 counterexample to "contained in exactly one": with options
`{100, 1000}` the cached zero-length range at offset `600` is contained,
per `contains`, in both of the two distinct merged ranges that the merger
produces for the stream `[0,600), [600,0), [600,500)` — the table splits
exactly at offset `600` because combining would exceed the size limit. -/
theorem cached_range_in_two_merged :
    sortedDisjointB [⟨0, 600⟩, ⟨600, 0⟩, ⟨600, 500⟩] = true ∧
    nonnegB [⟨0, 600⟩, ⟨600, 0⟩, ⟨600, 500⟩] = true ∧
    coalesce ⟨100, 1000⟩ [⟨0, 600⟩, ⟨600, 0⟩, ⟨600, 500⟩] =
      [⟨0, 600⟩, ⟨600, 500⟩] ∧
    (⟨0, 600⟩ : ReadRange).contains ⟨600, 0⟩ = true ∧
    (⟨600, 500⟩ : ReadRange).contains ⟨600, 0⟩ = true ∧
    (⟨0, 600⟩ : ReadRange) ≠ ⟨600, 500⟩ := by
  decide

theorem coalesceAux_size_bound (opts : CacheOptions) :
    ∀ (rest : List ReadRange) (running : ReadRange) (m : ReadRange),
    m ∈ coalesceAux opts running rest →
    m.length ≤ opts.range_size_limit ∨ m = running ∨ m ∈ rest := by
  intro rest
  induction rest with
  | nil =>
    intro running m hm
    simp only [coalesceAux, List.mem_singleton] at hm
    exact Or.inr (Or.inl hm)
  | cons next rest ih =>
    intro running m hm
    by_cases hsm : shouldMerge opts running next = true
    · simp only [coalesceAux, hsm, if_true] at hm
      rcases ih (mergeStep running next) m hm with h | h | h
      · exact Or.inl h
      · left
        subst h
        have h2 : next.rend - running.offset ≤ opts.range_size_limit := by
          have := hsm
          simp only [shouldMerge, Bool.and_eq_true, decide_eq_true_eq] at this
          exact this.2
        simpa only [mergeStep] using h2
      · exact Or.inr (Or.inr (List.mem_cons_of_mem _ h))
    · have hsmf : shouldMerge opts running next = false := by
        cases h : shouldMerge opts running next
        · rfl
        · exact absurd h hsm
      simp only [coalesceAux, hsmf] at hm
      simp only [Bool.false_eq_true, if_false, List.mem_cons] at hm
      rcases hm with hm | hm
      · exact Or.inr (Or.inl hm)
      · rcases ih next m hm with h | h | h
        · exact Or.inl h
        · exact Or.inr (Or.inr (h ▸ List.mem_cons_self _ _))
        · exact Or.inr (Or.inr (List.mem_cons_of_mem _ h))

/-- C5 (amended): every merged range produced by the merger either has
length at most `range_size_limit` or is itself one of the requested
ranges, kept unsplit — the size limit bounds combination only, so a lone
requested range may exceed it. -/
theorem coalesce_size_bound (opts : CacheOptions) (rs : List ReadRange)
    (m : ReadRange) (hm : m ∈ coalesce opts rs) :
    m.length ≤ opts.range_size_limit ∨ m ∈ rs := by
  cases rs with
  | nil => simp [coalesce] at hm
  | cons r rest =>
    rcases coalesceAux_size_bound opts rest r m hm with h | h | h
    · exact Or.inl h
    · exact Or.inr (h ▸ List.mem_cons_self _ _)
    · exact Or.inr (List.mem_cons_of_mem _ h)

/-- C5 witness: applying the bound to the merged range `[0,150)` obtained
from caching `[0,50)` and `[100,50)` with options `{100, 1000}`. -/
theorem coalesce_size_bound_witness :
    (⟨0, 150⟩ : ReadRange).length ≤ (⟨100, 1000⟩ : CacheOptions).range_size_limit ∨
    (⟨0, 150⟩ : ReadRange) ∈ [ReadRange.mk 0 50, ReadRange.mk 100 50] :=
  coalesce_size_bound ⟨100, 1000⟩ [⟨0, 50⟩, ⟨100, 50⟩] ⟨0, 150⟩ (by decide)

/-- C5 counterexample to the unamended claim: a single requested range of
length `2000` cached with `range_size_limit = 1000` yields a merged range
whose length exceeds the limit. -/
theorem coalesce_size_bound_counterexample :
    sortedDisjointB [⟨0, 2000⟩] = true ∧ nonnegB [⟨0, 2000⟩] = true ∧
    coalesce ⟨100, 1000⟩ [⟨0, 2000⟩] = [⟨0, 2000⟩] ∧
    ¬((⟨0, 2000⟩ : ReadRange).length ≤
      (⟨100, 1000⟩ : CacheOptions).range_size_limit) := by
  decide

example : coalesce ⟨100, 1000⟩ [⟨0, 50⟩, ⟨100, 50⟩] = [⟨0, 150⟩] := by decide

example : coalesce ⟨100, 1000⟩ [⟨0, 50⟩, ⟨300, 50⟩] = [⟨0, 50⟩, ⟨300, 50⟩] := by
  decide

example : coalesce ⟨0, 10⟩ [⟨0, 10⟩, ⟨10, 0⟩, ⟨10, 10⟩] = [⟨0, 10⟩, ⟨10, 10⟩] := by
  decide

/-- C6: `contains` holds iff `offset ≤ other.offset` and
`offset + length ≥ other.offset + other.length`, and `operator==` is
structural equality of offset and length. -/
theorem contains_iff_and_eq_structural (a b : ReadRange) :
    (a.contains b = true ↔
      a.offset ≤ b.offset ∧ a.offset + a.length ≥ b.offset + b.length) ∧
    (a.eqOp b = true ↔ a.offset = b.offset ∧ a.length = b.length) := by
  constructor
  · simp [ReadRange.contains]
  · simp [ReadRange.eqOp]

/-- C9: the default hole size limit is 8192 bytes and the default range
size limit is 33554432 bytes (32 MiB). -/
theorem default_limits :
    kDefaultHoleSizeLimit = 8192 ∧ kDefaultRangeSizeLimit = 33554432 := by
  decide

/-- C10: for a range `a` of non-negative length and a zero-length range
`z`, `a.contains z` holds iff `a.offset ≤ z.offset ≤ a.offset + a.length`;
in particular `a` contains the zero-length range at its exclusive end. -/
theorem contains_zero_length (a z : ReadRange)
    (ha : 0 ≤ a.length) (hz : z.length = 0) :
    (a.contains z = true ↔
      a.offset ≤ z.offset ∧ z.offset ≤ a.offset + a.length) ∧
    a.contains ⟨a.offset + a.length, 0⟩ = true := by
  constructor
  · simp only [ReadRange.contains, Bool.and_eq_true, decide_eq_true_eq, hz]
    omega
  · simp only [ReadRange.contains, Bool.and_eq_true, decide_eq_true_eq]
    omega

/-- C10 witness: the range `[0, 5)` contains the zero-length range at
offset `5`, its exclusive end. -/
theorem contains_zero_length_witness :
    (ReadRange.mk 0 5).contains ⟨5, 0⟩ = true :=
  ((contains_zero_length ⟨0, 5⟩ ⟨5, 0⟩ (by decide) (by decide)).1).mpr
    (by constructor <;> decide)

/-- C4: the usage comment of `ReadRangeCache` documents the three
operations `cache`, `waitFor`, `read`, but the class declaration offers
only `cache` and `read`: no `waitFor` member is declared. -/
theorem waitFor_documented_but_not_declared :
    "waitFor" ∈ readRangeCacheDocumentedOps ∧
    "waitFor" ∉ readRangeCacheDeclaredOps ∧
    "cache" ∈ readRangeCacheDeclaredOps ∧
    "read" ∈ readRangeCacheDeclaredOps := by
  decide

/-- C2: one step of the greedy merger.  The running merged range absorbs
the next candidate exactly when `next.offset - running.end` is at most
`hole_size_limit` and `next.end - running.offset` is at most
`range_size_limit` (ties merge, the comparisons being `≤`); when either
condition fails the running range is closed and a new one starts at the
candidate. -/
theorem coalesce_merge_iff (opts : CacheOptions) (running next : ReadRange)
    (rest : List ReadRange) :
    (next.offset - running.rend ≤ opts.hole_size_limit ∧
        next.rend - running.offset ≤ opts.range_size_limit →
      coalesceAux opts running (next :: rest) =
        coalesceAux opts (mergeStep running next) rest) ∧
    (¬(next.offset - running.rend ≤ opts.hole_size_limit ∧
        next.rend - running.offset ≤ opts.range_size_limit) →
      coalesceAux opts running (next :: rest) =
        running :: coalesceAux opts next rest) := by
  constructor
  · intro h
    have hb : shouldMerge opts running next = true := by
      simp only [shouldMerge, Bool.and_eq_true, decide_eq_true_eq]
      exact h
    simp [coalesceAux, hb]
  · intro h
    have hb : shouldMerge opts running next = false := by
      simp only [shouldMerge, Bool.and_eq_true, decide_eq_true_eq]
      by_contra hc
      simp only [Bool.not_eq_false, Bool.and_eq_true, decide_eq_true_eq] at hc
      exact h hc
    simp [coalesceAux, hb]

/-- C2 witness: with `hole_size_limit = 100` a gap of exactly 100 bytes
still merges (`[0,50)` then `[150,50)` coalesce to `[0,200)`), while with
the same options a 101-byte gap does not. -/
theorem coalesce_merge_iff_witness :
    coalesceAux ⟨100, 1000⟩ ⟨0, 50⟩ [⟨150, 50⟩] = [⟨0, 200⟩] ∧
    coalesceAux ⟨100, 1000⟩ ⟨0, 50⟩ [⟨151, 50⟩] = [⟨0, 50⟩, ⟨151, 50⟩] := by
  constructor
  · have h := (coalesce_merge_iff ⟨100, 1000⟩ ⟨0, 50⟩ ⟨150, 50⟩ []).1
      (by constructor <;> decide)
    rw [h]
    decide
  · have h := (coalesce_merge_iff ⟨100, 1000⟩ ⟨0, 50⟩ ⟨151, 50⟩ []).2
      (by intro hc; exact absurd hc.1 (by decide))
    rw [h]
    decide

theorem fetchEntry_range (s : StreamModel) (e : MergedEntry) :
    (fetchEntry s e).range = e.range := by
  cases e with
  | mk rg res d => cases res <;> rfl

theorem fetchEntry_idem (s : StreamModel) (e : MergedEntry) :
    fetchEntry s (fetchEntry s e) = fetchEntry s e := by
  cases e with
  | mk rg res d => cases res <;> rfl

theorem implicated_fetchEntry (s : StreamModel) (ranges : List ReadRange)
    (e : MergedEntry) :
    implicated ranges (fetchEntry s e) = implicated ranges e := by
  simp only [implicated, fetchEntry_range]

theorem waitForState_step_range (s : StreamModel) (ranges : List ReadRange)
    (e : MergedEntry) :
    (if implicated ranges e then fetchEntry s e else e).range = e.range := by
  by_cases h : implicated ranges e = true
  · rw [if_pos h, fetchEntry_range]
  · rw [if_neg h]

theorem waitForState_any_contains (s : StreamModel) (ranges : List ReadRange)
    (st : List MergedEntry) (r : ReadRange) :
    (waitForState s ranges st).any (fun e => e.range.contains r) =
      st.any (fun e => e.range.contains r) := by
  simp only [waitForState, List.any_map]
  congr 1
  funext e
  simp only [Function.comp, waitForState_step_range]

theorem waitForState_idem (s : StreamModel) (ranges : List ReadRange)
    (st : List MergedEntry) :
    waitForState s ranges (waitForState s ranges st) =
      waitForState s ranges st := by
  simp only [waitForState, List.map_map]
  apply List.map_congr_left
  intro e _
  simp only [Function.comp]
  by_cases h : implicated ranges e = true
  · rw [if_pos h]
    rw [if_pos (by rw [implicated_fetchEntry]; exact h), fetchEntry_idem]
  · rw [if_neg h, if_neg h]

/-- C8: calling `waitFor` twice in succession with the same range set on a
freshly cached table yields the same result both times, the second call
changes nothing, and across both calls at most one fetch is dispatched to
the external stream per merged range. -/
theorem waitFor_idempotent (s : StreamModel) (opts : CacheOptions)
    (rs ranges : List ReadRange) :
    (waitFor s (waitFor s (cacheLazy opts rs) ranges).2 ranges).1 =
      (waitFor s (cacheLazy opts rs) ranges).1 ∧
    (waitFor s (waitFor s (cacheLazy opts rs) ranges).2 ranges).2 =
      (waitFor s (cacheLazy opts rs) ranges).2 ∧
    (∀ e ∈ (waitFor s (waitFor s (cacheLazy opts rs) ranges).2 ranges).2,
      e.dispatches ≤ 1) := by
  by_cases hg : (ranges.all
      (fun r => (cacheLazy opts rs).any (fun e => e.range.contains r))) = true
  · have h1 : waitFor s (cacheLazy opts rs) ranges =
        (waitForResult ranges (waitForState s ranges (cacheLazy opts rs)),
          waitForState s ranges (cacheLazy opts rs)) := by
      simp only [waitFor, if_pos hg]
    have hg2 : (ranges.all
        (fun r => (waitForState s ranges (cacheLazy opts rs)).any
          (fun e => e.range.contains r))) = true := by
      have hfun : (fun r => (waitForState s ranges (cacheLazy opts rs)).any
            (fun e => e.range.contains r)) =
          (fun r => (cacheLazy opts rs).any (fun e => e.range.contains r)) :=
        funext (fun r => waitForState_any_contains s ranges (cacheLazy opts rs) r)
      rw [hfun]
      exact hg
    have h2 : waitFor s (waitForState s ranges (cacheLazy opts rs)) ranges =
        (waitForResult ranges (waitForState s ranges (cacheLazy opts rs)),
          waitForState s ranges (cacheLazy opts rs)) := by
      simp only [waitFor, if_pos hg2, waitForState_idem]
    rw [h1]
    rw [h2]
    refine ⟨rfl, rfl, ?_⟩
    intro e he
    simp only [waitForState, List.mem_map] at he
    obtain ⟨e0, he0, hfe⟩ := he
    simp only [cacheLazy, List.mem_map] at he0
    obtain ⟨m, _, hfm⟩ := he0
    subst hfe
    subst hfm
    by_cases h : implicated ranges (freshEntry m) = true
    · rw [if_pos h]
      exact le_refl 1
    · rw [if_neg h]
      exact Nat.zero_le 1
  · have h1 : waitFor s (cacheLazy opts rs) ranges =
        (Except.error "range not found in cache", cacheLazy opts rs) := by
      simp only [waitFor, if_neg hg]
    rw [h1]
    rw [show waitFor s (cacheLazy opts rs) ranges =
      (Except.error "range not found in cache", cacheLazy opts rs) from h1]
    refine ⟨rfl, rfl, ?_⟩
    intro e he
    simp only [cacheLazy, List.mem_map] at he
    obtain ⟨m, _, hfm⟩ := he
    subst hfm
    exact Nat.zero_le 1

theorem coalesce_contains (opts : CacheOptions) (rs : List ReadRange)
    (hs : sortedDisjointB rs = true) (hn : nonnegB rs = true) :
    ∀ r ∈ rs, ∃ m ∈ coalesce opts rs, m.contains r = true := by
  cases rs with
  | nil => simp
  | cons a rest =>
    obtain ⟨m, tl, heq, hoff, hrend, _, _, hcont⟩ :=
      coalesceAux_main opts rest a hs hn
    have hout : coalesce opts (a :: rest) = m :: tl := heq
    intro r hr
    rw [hout]
    rcases List.mem_cons.mp hr with hr | hr
    · subst hr
      exact ⟨m, List.mem_cons_self _ _,
        contains_of_bounds m r (le_of_eq hoff) hrend⟩
    · exact hcont r hr

theorem mem_length_nonneg (rs : List ReadRange) (r : ReadRange)
    (hn : nonnegB rs = true) (hr : r ∈ rs) : 0 ≤ r.length := by
  simp only [nonnegB, List.all_eq_true, decide_eq_true_eq] at hn
  exact hn r hr

/-- Slicing the requested sub-range out of the merged buffer recovers
exactly the bytes a direct positioned read of the requested range would
return. -/
theorem sliceOut_readAtData (data : Int → Nat) (m r : ReadRange)
    (h1 : m.offset ≤ r.offset)
    (h2 : r.offset + r.length ≤ m.offset + m.length)
    (h3 : 0 ≤ r.length) :
    sliceOut m r (readAtData data m.offset m.length) =
      readAtData data r.offset r.length := by
  have hM : (r.offset - m.offset).toNat + r.length.toNat ≤ m.length.toNat := by
    omega
  apply List.ext_getElem
  · simp only [sliceOut, readAtData, List.length_take, List.length_drop,
      List.length_map, List.length_range]
    omega
  · intro i hiL hiR
    simp only [sliceOut, readAtData, List.getElem_take, List.getElem_drop,
      List.getElem_map, List.getElem_range]
    congr 1
    omega

theorem freshEntry_range (m : ReadRange) : (freshEntry m).range = m := rfl

/-- C1: for a range `r` cached under the disjointness preconditions and a
failure-free stream, a subsequent `read(r)` succeeds and returns exactly
the bytes the external stream's `readAt(r.offset, r.length)` would return,
whichever merged range `r` was coalesced into. -/
theorem read_roundtrip (opts : CacheOptions) (s : StreamModel)
    (rs : List ReadRange) (r : ReadRange)
    (hs : sortedDisjointB rs = true) (hn : nonnegB rs = true)
    (hr : r ∈ rs) (hok : ∀ off len, s.failsAt off len = false) :
    readCache s (cacheEager s opts rs) r =
      Except.ok (readAtData s.data r.offset r.length) := by
  obtain ⟨m0, hm0, hc0⟩ := coalesce_contains opts rs hs hn r hr
  have hmem : ∃ e ∈ cacheEager s opts rs, e.range.contains r = true := by
    refine ⟨fetchEntry s (freshEntry m0), ?_, ?_⟩
    · exact List.mem_map_of_mem _ hm0
    · rw [fetchEntry_range, freshEntry_range]
      exact hc0
  have hfindSome : ((cacheEager s opts rs).find?
      (fun e => e.range.contains r)).isSome := by
    rw [List.find?_isSome]
    exact hmem
  obtain ⟨e, hfind⟩ := Option.isSome_iff_exists.mp hfindSome
  have hpe : e.range.contains r = true := by
    have h := List.find?_some hfind
    exact h
  have hemem : e ∈ cacheEager s opts rs := List.mem_of_find?_eq_some hfind
  simp only [cacheEager, List.mem_map] at hemem
  obtain ⟨m1, hm1, hfe⟩ := hemem
  have hres : e.result = some (Except.ok (readAtData s.data m1.offset m1.length)) := by
    rw [← hfe]
    show (fetchEntry s (freshEntry m1)).result = _
    simp only [fetchEntry, freshEntry, StreamModel.readAt, hok, if_false,
      Bool.false_eq_true]
  have hrange : e.range = m1 := by
    rw [← hfe, fetchEntry_range, freshEntry_range]
  simp only [readCache, hfind, entryResult, hres, Except.map, hrange]
  congr 1
  have hb : m1.offset ≤ r.offset ∧ r.offset + r.length ≤ m1.offset + m1.length := by
    rw [hrange] at hpe
    simpa only [ReadRange.contains, Bool.and_eq_true, decide_eq_true_eq,
      ge_iff_le] using hpe
  exact sliceOut_readAtData s.data m1 r hb.1 hb.2 (mem_length_nonneg rs r hn hr)

/-- C1 witness: with options `{100, 1000}` and a concrete failure-free
stream, caching `[0,50)` and `[100,50)` (which coalesce into `[0,150)`)
and then reading `[100,50)` returns exactly the direct read of bytes
`100..149`. -/
theorem read_roundtrip_witness :
    readCache ⟨fun off => off.toNat % 256, fun _ _ => false⟩
      (cacheEager ⟨fun off => off.toNat % 256, fun _ _ => false⟩ ⟨100, 1000⟩
        [⟨0, 50⟩, ⟨100, 50⟩])
      ⟨100, 50⟩ =
    Except.ok (readAtData (fun off => off.toNat % 256) 100 50) :=
  read_roundtrip ⟨100, 1000⟩ ⟨fun off => off.toNat % 256, fun _ _ => false⟩
    [⟨0, 50⟩, ⟨100, 50⟩] ⟨100, 50⟩ (by decide) (by decide) (by decide)
    (fun _ _ => rfl)

/-- C7: `cache` returns no error value — its entire effect is the
merged-range table, which is the same whatever failures the stream
produces; a stored I/O failure and a range-not-found usage error are each
surfaced as explicit error results of `read` and `waitFor`, never
dropped; and a failure injected on one merged range leaves the fetch
state of every other merged range unchanged. -/
theorem failure_deferred_and_isolated (s1 s2 : StreamModel)
    (mfail : ReadRange)
    (hdata : s1.data = s2.data)
    (hfails : ∀ off len, ¬(off = mfail.offset ∧ len = mfail.length) →
      s1.failsAt off len = s2.failsAt off len) :
    (∀ opts rs, (cacheEager s1 opts rs).map MergedEntry.range = coalesce opts rs) ∧
    (∀ st r, st.find? (fun e => e.range.contains r) = none →
      readCache s1 st r = Except.error "range not found in cache") ∧
    (∀ st r e msg, st.find? (fun e2 => e2.range.contains r) = some e →
      e.result = some (Except.error msg) →
      readCache s1 st r = Except.error msg) ∧
    (∀ ranges st e, st.find? (fun e2 => implicated ranges e2 && entryFailed e2) =
        some e →
      waitForResult ranges st = Except.error (entryErr e)) ∧
    (∀ ranges st, st.find? (fun e2 => implicated ranges e2 && entryFailed e2) =
        none →
      waitForResult ranges st = Except.ok ()) ∧
    (∀ m : ReadRange, ¬(m.offset = mfail.offset ∧ m.length = mfail.length) →
      fetchEntry s1 (freshEntry m) = fetchEntry s2 (freshEntry m)) := by
  refine ⟨?_, ?_, ?_, ?_, ?_, ?_⟩
  · intro opts rs
    rw [cacheEager, List.map_map]
    have hcomp : (MergedEntry.range ∘ fun m => fetchEntry s1 (freshEntry m)) =
        id := by
      funext m
      simp [Function.comp, fetchEntry_range, freshEntry_range]
    rw [hcomp, List.map_id]
  · intro st r h
    simp only [readCache, h]
  · intro st r e msg hf hres
    simp only [readCache, hf, entryResult, hres, Except.map]
  · intro ranges st e hf
    simp only [waitForResult, hf]
  · intro ranges st hf
    simp only [waitForResult, hf]
  · intro m hm
    have hr : s1.readAt m.offset m.length = s2.readAt m.offset m.length := by
      simp only [StreamModel.readAt, hdata, hfails m.offset m.length hm]
    show (⟨m, some (s1.readAt m.offset m.length), 1⟩ : MergedEntry) =
      ⟨m, some (s2.readAt m.offset m.length), 1⟩
    rw [hr]

/-- C7 witness: a stream failing exactly on the merged range `[300,50)`
produces the same fetched entry for the unrelated merged range `[0,50)`
as a stream that never fails. -/
theorem failure_deferred_and_isolated_witness :
    fetchEntry ⟨fun off => off.toNat % 256,
        fun off len => decide (off = 300 ∧ len = 50)⟩ (freshEntry ⟨0, 50⟩) =
    fetchEntry ⟨fun off => off.toNat % 256, fun _ _ => false⟩
      (freshEntry ⟨0, 50⟩) :=
  (failure_deferred_and_isolated
    ⟨fun off => off.toNat % 256, fun off len => decide (off = 300 ∧ len = 50)⟩
    ⟨fun off => off.toNat % 256, fun _ _ => false⟩
    ⟨300, 50⟩ rfl
    (fun off len h => decide_eq_false h)).2.2.2.2.2 ⟨0, 50⟩ (by decide)

end OrcCache
